import Mathlib

set_option maxHeartbeats 1000000

/-!
Shallow embedding of the pwndbg debugger-extension core (register facade,
memory helpers, GDB backend adapter, architecture model) and proofs about
the behaviour its specification claims.

Inferior memory is modelled as a map from addresses to optional byte
values: `none` means the address is unreadable by the engine.
-/

/-- Inferior memory as seen through the `Process` interface: byte content per
address, `none` where a read of that address raises an engine error. -/
def Memory : Type := Nat → Option Nat

/-- `peek(address)` (src/pwndbg/aglib/memory.py): `chr(read(address, 1)[0])`
wrapped in a catch-all `try`, giving the one-character string for the byte on
success and `None` when the read raises.  We model the result as the byte's
code point (Python `chr(b)` has code point `b`). -/
def peek (mem : Memory) (addr : Nat) : Option Nat := mem addr

/-- `read(addr, count, partial=True)`: reads up to `count` bytes, a short
result being allowed, stopping at the first unreadable address. -/
def readUpTo (mem : Memory) (addr : Nat) : Nat → List Nat
  | 0 => []
  | n + 1 =>
    match mem addr with
    | some b => b :: readUpTo mem (addr + 1) n
    | none => []

/-- Index of the first zero byte, as computed by Python `data.index(b"\x00")`
(`none` models the `ValueError` raised when no zero byte occurs). -/
def firstZeroIdx : List Nat → Option Nat
  | [] => none
  | b :: rest => if b = 0 then some 0 else (firstZeroIdx rest).map (· + 1)

/-- `string(addr, max)` (src/pwndbg/aglib/memory.py): probe `addr` with
`peek`; on success read up to `max` bytes allowing a short result and slice
up to the first zero byte; on `ValueError` (no zero byte) fall through to the
empty bytearray, which is also returned when the probe fails. -/
def string (mem : Memory) (addr : Nat) (max : Nat) : List Nat :=
  if (peek mem addr).isSome then
    let data := readUpTo mem addr max
    match firstZeroIdx data with
    | some i => data.take i
    | none => []
  else []

/-- Python single-code-point UTF-8 encoding for `b < 0x800`, the effect of
`bytes(chr(b), "utf8")` inside `write` (src/pwndbg/aglib/memory.py) on the
one-character string produced by `peek`. -/
def utf8Bytes (cp : Nat) : List Nat :=
  if cp < 128 then [cp] else [192 + cp / 64, 128 + cp % 64]

/-- Store a list of bytes at consecutive addresses. -/
def storeBytes (mem : Memory) (addr : Nat) : List Nat → Memory
  | [] => mem
  | b :: rest => storeBytes (fun a => if a = addr then some b else mem a) (addr + 1) rest

/-- Whether the next `n` addresses starting at `addr` are all writable. -/
def allWritable (w : Nat → Bool) (addr : Nat) : Nat → Bool
  | 0 => true
  | n + 1 => w addr && allWritable w (addr + 1) n

/-- `write(addr, data)` (src/pwndbg/aglib/memory.py) applied to the
one-character string returned by `peek`: the string is re-encoded through
UTF-8 and written with `partial=False`; the write either succeeds as a whole
or raises, leaving memory unchanged. -/
def writeStr (mem : Memory) (w : Nat → Bool) (addr : Nat) (cp : Nat) : Option Memory :=
  let data := utf8Bytes cp
  if allWritable w addr data.length then some (storeBytes mem addr data) else none

/-- `poke(address)` (src/pwndbg/aglib/memory.py): `peek` the byte; on `None`
return `False`; otherwise `write` the peeked character back, returning
`False` if the write raises and `True` otherwise.  The pair gives the result
and the memory state after the call. -/
def poke (mem : Memory) (w : Nat → Bool) (addr : Nat) : Bool × Memory :=
  match peek mem addr with
  | none => (false, mem)
  | some c =>
    match writeStr mem w addr c with
    | some mem2 => (true, mem2)
    | none => (false, mem)

/-- Concrete memory for the C2 counterexample: two readable bytes `1, 2`
at addresses 0 and 1, no zero byte among them. -/
def memC2 : Memory := fun a => if a = 0 then some 1 else if a = 1 then some 2 else none

/-- Concrete memory for the C2 witness: bytes `5, 6, 0, 7` at addresses 0-3. -/
def memC2w : Memory := fun a =>
  if a = 0 then some 5 else if a = 1 then some 6 else
  if a = 2 then some 0 else if a = 3 then some 7 else none

/-- Concrete memory for the C3 failing input: a readable byte `0x80` at
address 0 followed by a readable byte `0x41` at address 1. -/
def memC3 : Memory := fun a => if a = 0 then some 128 else if a = 1 then some 65 else none

/-- `GDBFrame.evaluate_expression` (src/pwndbg/dbg/gdb.py): record the
engine's selected frame, select `self` if different, run
`gdb.parse_and_eval`, and re-select the original frame only on the
non-raising path — the source has no `try`/`finally`, so an engine error
propagates before `selected.select()` runs.  The engine state is the id of
the selected frame; `evalAt` gives the outcome of `parse_and_eval` as a
function of the frame selected while it runs. -/
def frameEvalExpr (self : Nat) (evalAt : Nat → Except Unit Nat) (selected : Nat) :
    Except Unit Nat × Nat :=
  let restore := selected ≠ self
  match evalAt self with
  | .error e => (.error e, self)
  | .ok v => (.ok v, if restore then selected else self)

/-- `GDBThread.bottom_frame` (src/pwndbg/dbg/gdb.py): the same
select/operate/re-select sequence over the selected thread, around
`gdb.newest_frame()`, again with no `try`/`finally`. -/
def threadBottomFrame (self : Nat) (newestAt : Nat → Except Unit Nat) (selected : Nat) :
    Except Unit Nat × Nat :=
  let restore := selected ≠ self
  match newestAt self with
  | .error e => (.error e, self)
  | .ok v => (.ok v, if restore then selected else self)

/-- The abstraction's `TypeCode` enumeration (pwndbg.dbg_mod.TypeCode). -/
inductive TypeCode
  | INT
  | UNION
  | STRUCT
  | ENUM
  | TYPEDEF
  | POINTER
  | ARRAY
deriving DecidableEq

/-- Exceptions relevant to `GDBType.code`: a Python `NameError` for an
unbound name, and the `AssertionError` of a failed `assert`. -/
inductive PyExc
  | nameError (name : String)
  | assertionError (msg : String)
deriving DecidableEq

/-- Stand-ins for the engine's native type-code constants (`gdb.TYPE_CODE_*`,
an external collaborator of the repository); only their distinctness
matters. -/
def TYPE_CODE_PTR : Nat := 1

def TYPE_CODE_ARRAY : Nat := 2

def TYPE_CODE_STRUCT : Nat := 3

def TYPE_CODE_UNION : Nat := 4

def TYPE_CODE_ENUM : Nat := 5

def TYPE_CODE_FUNC : Nat := 7

def TYPE_CODE_INT : Nat := 8

def TYPE_CODE_TYPEDEF : Nat := 19

/-- The fixed translation table `GDBType.CODE_MAPPING`
(src/pwndbg/dbg/gdb.py), a class attribute of `GDBType`, in source order. -/
def CODE_MAPPING : List (Nat × TypeCode) :=
  [(TYPE_CODE_INT, TypeCode.INT),
   (TYPE_CODE_UNION, TypeCode.UNION),
   (TYPE_CODE_STRUCT, TypeCode.STRUCT),
   (TYPE_CODE_ENUM, TypeCode.ENUM),
   (TYPE_CODE_TYPEDEF, TypeCode.TYPEDEF),
   (TYPE_CODE_PTR, TypeCode.POINTER),
   (TYPE_CODE_ARRAY, TypeCode.ARRAY)]

/-- The names bound at module scope in src/pwndbg/dbg/gdb.py (imports and
top-level classes).  Python resolves a bare name inside a method body against
function locals, module globals and builtins — never against class
attributes, so `CODE_MAPPING` is not among the resolvable names. -/
def gdbModuleNames : List String :=
  ["annotations", "signal", "gdb", "Callable", "override", "pwndbg",
   "load_commands", "gdb_version", "load_gdblib",
   "GDBFrame", "GDBThread", "GDBProcess", "GDBSession", "GDBCommand",
   "GDBCommandHandle", "GDBType", "GDBValue", "GDB"]

/-- Whether a bare name in a `GDBType` method body resolves (locals hold only
`self`; then module globals; builtins bind no `CODE_MAPPING`). -/
def resolvesInGDBTypeMethod (name : String) : Bool :=
  name == "self" || gdbModuleNames.contains name

/-- The `GDBType.code` property (src/pwndbg/dbg/gdb.py): the body reads the
bare name `CODE_MAPPING` (first in the `assert`, then in the subscript); if
that name resolved, the `assert` would reject unmapped codes and the
subscript would return the mapped `TypeCode`. -/
def GDBType_code (innerCode : Nat) : Except PyExc TypeCode :=
  if resolvesInGDBTypeMethod "CODE_MAPPING" then
    match CODE_MAPPING.lookup innerCode with
    | some tc => Except.ok tc
    | none => Except.error (PyExc.assertionError "missing mapping for type code")
  else Except.error (PyExc.nameError "CODE_MAPPING")

/-- The two-generation register cache of the register facade
(src/pwndbg/aglib/regs.py): `previous` holds the generation before `last`;
both are name-keyed snapshots, where `none` records a register that read as
absent. -/
structure RegSnap where
  previous : List (String × Option Nat)
  last : List (String × Option Nat)

/-- `update_last` (src/pwndbg/aglib/regs.py), the handler run on each
`CONTINUE` and `STOP` event: shift `last` into `previous` and recompute
`last` as `{k: M[k] for k in M.common}`.  `readReg` models the facade read
`M[k]` (normalized, pointer-masked, `none` when absent). -/
def update_last (readReg : String → Option Nat) (common : List String) (s : RegSnap) :
    RegSnap :=
  { previous := s.last, last := common.map fun k => (k, readReg k) }

/-- The `changed` property (src/pwndbg/aglib/regs.py): the names in
`previous` whose facade read now differs from the recorded value. -/
def changed (readReg : String → Option Nat) (s : RegSnap) : List String :=
  (s.previous.filter fun kv => decide (readReg kv.1 ≠ kv.2)).map Prod.fst

/-- Lowercase hexadecimal digits of `n`, via the core conversion. -/
def hexDigits (n : Nat) : String := String.mk (Nat.toDigits 16 n)

/-- Python `"%#Nx" % n` for `n ≥ 0`: the `#` alternate form prefixes `0x`,
and the result is left-padded with SPACES (no `0` flag) to a minimum total
field width of `N` characters, prefix included. -/
def pyPercentHashX (width : Nat) (n : Nat) : String :=
  let core := "0x" ++ hexDigits n
  String.mk (List.replicate (width - core.length) ' ') ++ core

/-- The pointer mask derived from the pointer size (`pwndbg.gdblib.arch`,
external to src/): two's-complement masking of the address. -/
def ptrmaskOf (ptrsize : Nat) : Nat := 2 ^ (8 * ptrsize) - 1

/-- `GDB.addrsz(address)` (src/pwndbg/dbg/gdb.py):
`int(address) & ptrmask` then `f"%#{2 * ptrsize}x" % address`.  The masking
of a Python int by `2^k - 1` is Euclidean reduction mod `2^k`. -/
def addrsz (ptrsize : Nat) (address : Int) : String :=
  pyPercentHashX (2 * ptrsize) (Int.emod address (2 ^ (8 * ptrsize))).toNat

/-- The amended formatting of C6, stated independently: mask the address to
pointer width, render as `0x`-prefixed lowercase hexadecimal, and right-align
the whole token with spaces to a field of two characters per pointer byte,
the `0x` prefix counting toward that field. -/
def addrszAmended (ptrsize : Nat) (address : Int) : String :=
  let masked := (Int.emod address (2 ^ (8 * ptrsize))).toNat
  let token := "0x" ++ String.mk (Nat.toDigits 16 masked)
  String.mk (List.replicate (2 * ptrsize - token.length) ' ') ++ token

/-- `read_thumb_bit()` (src/pwndbg/aglib/arch.py): on the `arm`
architecture, bit 5 of `cpsr` when that register reads as present, falling
through to `None` when it does not; on `armcm`, bit 24 of `xpsr` likewise;
`None` on every other architecture.  `readReg` models the facade register
read (`pwndbg.aglib.regs.<name>`). -/
def read_thumb_bit (archName : String) (readReg : String → Option Nat) : Option Nat :=
  if archName = "arm" then
    match readReg "cpsr" with
    | some cpsr => some ((cpsr >>> 5) &&& 1)
    | none => none
  else if archName = "armcm" then
    match readReg "xpsr" with
    | some xpsr => some ((xpsr >>> 24) &&& 1)
    | none => none
  else none

/-- Concrete register state for the C9 witness: `cpsr` reads as 32 (bit 5
set), nothing else is readable. -/
def rdC9 : String → Option Nat := fun n => if n = "cpsr" then some 32 else none

/-- State touched by the register facade's `__setattr__`
(src/pwndbg/aglib/regs.py): the Python attributes stored on the module
object, and the register file of the currently selected frame. -/
structure FacadeState where
  pyAttrs : List (String × Int)
  frameRegs : List (String × Int)

/-- Association-list update (set the key's value, appending if absent). -/
def setAssoc (l : List (String × Int)) (k : String) (v : Int) : List (String × Int) :=
  if l.any (fun kv => kv.1 == k) then
    l.map (fun kv => if kv.1 == k then (k, v) else kv)
  else l ++ [(k, v)]

/-- `Frame.reg_write(name, value)` on the selected frame's register file. -/
def reg_write (regs : List (String × Int)) (name : String) (v : Int) :
    List (String × Int) :=
  setAssoc regs name v

/-- `module.__setattr__` (src/pwndbg/aglib/regs.py): names `last` and
`previous` go through `super().__setattr__` (an ordinary Python attribute
store); every other name is forwarded as
`pwndbg.dbg.selected_frame().reg_write(attr, int(val))`.  Values are already
integers here, so `int(val)` is the identity. -/
def module_setattr (s : FacadeState) (attr : String) (v : Int) : FacadeState :=
  if attr = "last" ∨ attr = "previous" then
    { s with pyAttrs := setAssoc s.pyAttrs attr v }
  else
    { s with frameRegs := reg_write s.frameRegs attr v }

/-- Modelled from the spec: `pwndbg.lib.memory.PAGE_SIZE` (the module is not
under src/) — the page granularity of the boundary search, "page-granularity
probing". -/
def PAGE_SIZE : Nat := 4096

/-- Modelled from the spec: `pwndbg.lib.memory.page_align` (the module is not
under src/) — "page-aligns the starting address". -/
def page_align (a : Nat) : Nat := a - a % PAGE_SIZE

/-- The loop of `find_upper_boundary` (src/pwndbg/aglib/memory.py): up to
`fuel` iterations of { probe one byte; step one page up; return `ptrmask` if
the address passed `ptrmask` }; a failing probe exits the loop and the
current address is returned. -/
def find_upper_loop (readable : Nat → Bool) (ptrmask : Nat) : Nat → Nat → Nat
  | 0, addr => addr
  | fuel + 1, addr =>
    if readable addr then
      if ptrmask < addr + PAGE_SIZE then ptrmask
      else find_upper_loop readable ptrmask fuel (addr + PAGE_SIZE)
    else addr

/-- `find_upper_boundary(addr, max_pages)` (src/pwndbg/aglib/memory.py):
page-align the start, then run the probing loop.  `readable a` models
whether `read(a, 1)` succeeds. -/
def find_upper_boundary (readable : Nat → Bool) (ptrmask : Nat) (addr maxPages : Nat) :
    Nat :=
  find_upper_loop readable ptrmask maxPages (page_align addr)

/-- The loop of `find_lower_boundary` (src/pwndbg/aglib/memory.py): up to
`fuel` iterations of { probe one byte; step one page down; return 0 if the
address went negative }; a failing probe jumps to the handler, which adds a
page back before returning. -/
def find_lower_loop (readable : Int → Bool) : Nat → Int → Int
  | 0, addr => addr
  | fuel + 1, addr =>
    if readable addr then
      if addr - (PAGE_SIZE : Int) < 0 then 0
      else find_lower_loop readable fuel (addr - (PAGE_SIZE : Int))
    else addr + (PAGE_SIZE : Int)

/-- `find_lower_boundary(addr, max_pages)` (src/pwndbg/aglib/memory.py):
page-align the start, then run the downward probing loop. -/
def find_lower_boundary (readable : Int → Bool) (addr maxPages : Nat) : Int :=
  find_lower_loop readable maxPages ((page_align addr : Nat) : Int)

/-- Concrete readability for C7: exactly the three pages at 0, 4096 and 8192
are readable upward from 0. -/
def ruC7 : Nat → Bool := fun a => a < 12288

/-- Concrete readability for C7: exactly the two page addresses 8192 and
4096 are readable downward from 8192. -/
def rlC7 : Int → Bool := fun a => a == 8192 || a == 4096

/-- Python regex word characters (`\w`) restricted to the ASCII names and
expressions the register rewriter works on: alphanumerics and underscore. -/
def isWordChar (c : Char) : Bool := c.isAlphanum || c = '_'

/-- Match `p` against the front of `s`, returning the remainder. -/
def restAfterHead (p s : List Char) : Option (List Char) :=
  match p, s with
  | [], rest => some rest
  | a :: p', b :: s' => if a = b then restAfterHead p' s' else none
  | _ :: _, [] => none

/-- The closing word boundary `\b` after a register name: holds at the end of
the string and before a non-word character. -/
def boundaryAfterOk : List Char → Bool
  | [] => true
  | c :: _ => !isWordChar c

/-- Match the register name at the front of `s` together with its closing
word boundary, returning the remainder of the string. -/
def nameMatch (reg s : List Char) : Option (List Char) :=
  match restAfterHead reg s with
  | some rest => if boundaryAfterOk rest then some rest else none
  | none => none

/-- Whether the text just emitted for a match ends in a word character (the
last character of the register name). -/
def lastIsWord (l : List Char) : Bool :=
  match l.getLast? with
  | some c => isWordChar c
  | none => false

/-- One pass of `re.sub(rf"\$?\b{regname}\b", "$" + regname, expression)`
(the loop body of `module.fix`, src/pwndbg/aglib/regs.py): scan left to
right; at a `$` the optional `\$?` consumes it and the name must follow with
its closing boundary; at a word character the opening `\b` requires the
previous character to be a non-word one (`prevw` tracks the word-ness of the
previous character, which is all `\b` depends on).  Replacement emits `$`
followed by the name and scanning resumes after the match.  `fuel` bounds
the recursion and is at least the length of the remaining input. -/
def subRegAux (reg : List Char) : Nat → Bool → List Char → List Char
  | 0, _, s => s
  | _ + 1, _, [] => []
  | fuel + 1, prevw, c :: rest =>
    if c = '$' then
      match nameMatch reg rest with
      | some r2 => '$' :: (reg ++ subRegAux reg fuel (lastIsWord reg) r2)
      | none => '$' :: subRegAux reg fuel false rest
    else if !prevw && isWordChar c then
      match nameMatch reg (c :: rest) with
      | some r2 => '$' :: (reg ++ subRegAux reg fuel (lastIsWord reg) r2)
      | none => c :: subRegAux reg fuel true rest
    else c :: subRegAux reg fuel (isWordChar c) rest

/-- `re.sub` for one register name over a whole expression (no character
precedes the start of the string). -/
def subReg (reg s : List Char) : List Char := subRegAux reg s.length false s

/-- `module.fix(expression)` (src/pwndbg/aglib/regs.py): one `re.sub` pass
per register name, applied sequentially; the iteration source is
`set(self.all + ["sp", "pc"])`, modelled as the list `regs` of names. -/
def fix (regs : List (List Char)) (s : List Char) : List Char :=
  regs.foldl (fun e r => subReg r e) s

/-- Decomposition segment of an expression: a maximal run of word characters
or a single non-word character. -/
inductive Seg
  | word : List Char → Seg
  | sym : Char → Seg
deriving DecidableEq

/-- Concatenate a segment list back into a string. -/
def flat : List Seg → List Char
  | [] => []
  | Seg.word w :: rest => w ++ flat rest
  | Seg.sym c :: rest => c :: flat rest

/-- Split off the longest word-character run at the front. -/
def takeRun : List Char → List Char × List Char
  | [] => ([], [])
  | c :: rest =>
    if isWordChar c then ((c :: (takeRun rest).1), (takeRun rest).2)
    else ([], c :: rest)

/-- Decompose a string into maximal word runs and single non-word
characters (`fuel` is at least the length of the input). -/
def segsGo : Nat → List Char → List Seg
  | 0, _ => []
  | _ + 1, [] => []
  | fuel + 1, c :: rest =>
    if isWordChar c then
      Seg.word (c :: (takeRun rest).1) :: segsGo fuel (takeRun rest).2
    else Seg.sym c :: segsGo fuel rest

/-- Decompose a string into segments. -/
def segs (s : List Char) : List Seg := segsGo s.length s

/-- The spec-level rewriting on the segment decomposition: every maximal
word run that is one of the register names is prefixed with a `$` segment —
unless a `$` already immediately precedes it, which the pattern's `\$?`
absorbs — and every other segment is left unchanged.  `afterDollar` records
whether the previous emitted character is a `$`. -/
def applySegs (mem : List Char → Bool) : Bool → List Seg → List Seg
  | _, [] => []
  | afterDollar, Seg.word w :: rest =>
    (if mem w && !afterDollar then [Seg.sym '$', Seg.word w] else [Seg.word w]) ++
      applySegs mem false rest
  | _, Seg.sym c :: rest => Seg.sym c :: applySegs mem (c == '$') rest

/-- Membership of a word run among the register names. -/
def memReg (regs : List (List Char)) (w : List Char) : Bool :=
  regs.any fun r => r == w

/-- The specification's description of `fix`, stated independently of the
scanning implementation: decompose the expression into maximal word-bounded
tokens, rewrite exactly the tokens that are register names into the
engine's `$`-prefixed form, and leave every other token — in particular any
longer identifier containing a register name as a proper substring —
unchanged. -/
def fixSpec (regs : List (List Char)) (s : List Char) : List Char :=
  flat (applySegs (memReg regs) false (segs s))

/-- A register name as `fix` encounters it: nonempty and made of word
characters only. -/
def goodWord (w : List Char) : Prop := w ≠ [] ∧ ∀ c ∈ w, isWordChar c = true

/-- Whether a segment list does not begin with a word run (maximality of the
run before it). -/
def headNotWord : List Seg → Prop
  | Seg.word _ :: _ => False
  | _ => True

/-- Well-formed segment lists: word runs are nonempty all-word and maximal
(never adjacent), symbols are non-word characters. -/
def SegsWF : List Seg → Prop
  | [] => True
  | Seg.sym c :: rest => isWordChar c = false ∧ SegsWF rest
  | Seg.word w :: rest => goodWord w ∧ headNotWord rest ∧ SegsWF rest

/-- The x86 register-name list for the C8 witness. -/
def regsC8 : List (List Char) := [['e', 'a', 'x'], ['e', 'b', 'x']]

/-- The first-zero-byte slice `data[: data.index(b"\x00")]` equals the
longest zero-free prefix whenever a zero byte exists. -/
theorem take_firstZeroIdx_eq_takeWhile (data : List Nat) (i : Nat)
    (h : firstZeroIdx data = some i) :
    data.take i = data.takeWhile (fun b => decide (b ≠ 0)) := by
  induction data generalizing i with
  | nil => simp [firstZeroIdx] at h
  | cons b rest ih =>
    by_cases hb : b = 0
    · simp [firstZeroIdx, hb] at h
      simp [← h, hb, List.takeWhile]
    · simp [firstZeroIdx, hb] at h
      obtain ⟨j, hj, hji⟩ := h
      simp [← hji, List.takeWhile, hb, ih j hj]

/-- Claim C2 (corrected): `string(addr, max)` returns an empty result when the
readability probe of `addr` fails; when the probe succeeds it reads up to
`max` bytes allowing a partial result and, when a zero byte occurs in the
bounded read, returns the prefix strictly before the first zero byte; when no
zero byte occurs within the bounded read, it returns an empty result (not the
full bounded read). -/
theorem string_behaviour (mem : Memory) (addr max : Nat) :
    (mem addr = none → string mem addr max = []) ∧
    ((mem addr).isSome → (0 : Nat) ∈ readUpTo mem addr max →
      string mem addr max = (readUpTo mem addr max).takeWhile (fun b => decide (b ≠ 0))) ∧
    ((mem addr).isSome → (0 : Nat) ∉ readUpTo mem addr max →
      string mem addr max = []) := by
  refine ⟨fun h => by simp [string, peek, h], fun hs hz => ?_, fun hs hz => ?_⟩
  · have hidx : ∃ i, firstZeroIdx (readUpTo mem addr max) = some i := by
      generalize readUpTo mem addr max = data at hz ⊢
      induction data with
      | nil => simp at hz
      | cons b rest ih =>
        by_cases hb : b = 0
        · exact ⟨0, by simp [firstZeroIdx, hb]⟩
        · have : (0 : Nat) ∈ rest := by
            rcases List.mem_cons.mp hz with h | h
            · exact absurd h.symm hb
            · exact h
          obtain ⟨j, hj⟩ := ih this
          exact ⟨j + 1, by simp [firstZeroIdx, hb, hj]⟩
    obtain ⟨i, hi⟩ := hidx
    simp only [string, peek, hs, if_true]
    rw [hi]
    exact take_firstZeroIdx_eq_takeWhile _ i hi
  · have hidx : firstZeroIdx (readUpTo mem addr max) = none := by
      generalize readUpTo mem addr max = data at hz ⊢
      induction data with
      | nil => rfl
      | cons b rest ih =>
        have hb : b ≠ 0 := fun h => hz (by simp [h])
        have : (0 : Nat) ∉ rest := fun h => hz (by simp [h])
        simp [firstZeroIdx, hb, ih this]
    simp only [string, peek, hs, if_true]
    rw [hidx]

/-- Witness for C2: at concrete memory `5, 6, 0, 7` the probe succeeds, a zero
byte occurs, and the result is the zero-free prefix `[5, 6]`. -/
theorem string_behaviour_witness :
    (memC2w 0).isSome = true ∧ (0 : Nat) ∈ readUpTo memC2w 0 4 ∧
      string memC2w 0 4 = (readUpTo memC2w 0 4).takeWhile (fun b => decide (b ≠ 0)) :=
  ⟨by decide, by decide, (string_behaviour memC2w 0 4).2.1 (by decide) (by decide)⟩

/-- Counterexample to C2 as stated: address 0 is readable, the bounded read
`[1, 2]` contains no zero byte, yet `string` returns the empty result rather
than the full bounded read. -/
theorem string_no_zero_counterexample :
    string memC2 0 4 = [] ∧ readUpTo memC2 0 4 = [1, 2] ∧ ([] : List Nat) ≠ [1, 2] := by
  refine ⟨?_, ?_, by decide⟩ <;> decide

/-- Claim C3 (code bug, failing input): at an address holding the readable,
writable byte `0x80`, `poke` returns `True` yet rewrites memory: `chr(0x80)`
re-encodes through UTF-8 as the two bytes `0xC2 0x80`, so the byte at the
address becomes `0xC2` and the following byte is overwritten with `0x80`. -/
theorem poke_corrupts_high_byte :
    (poke memC3 (fun _ => true) 0).1 = true ∧
      (poke memC3 (fun _ => true) 0).2 0 = some 194 ∧ memC3 0 = some 128 ∧
      (poke memC3 (fun _ => true) 0).2 1 = some 128 ∧ memC3 1 = some 65 := by
  refine ⟨?_, ?_, ?_, ?_, ?_⟩ <;> decide

/-- Claim C1 (code bug, failing input): with frame 0 selected and the target
frame 1, a failing `parse_and_eval` (respectively `gdb.newest_frame`) leaves
frame/thread 1 selected — the original selection 0 is not restored on the
error path, though it is restored on the success path. -/
theorem evaluate_expression_no_restore_on_error :
    (frameEvalExpr 1 (fun _ => .error ()) 0).2 = 1 ∧
      (threadBottomFrame 1 (fun _ => .error ()) 0).2 = 1 ∧ (1 : Nat) ≠ 0 ∧
      (frameEvalExpr 1 (fun _ => .ok 7) 0).2 = 0 ∧
      (threadBottomFrame 1 (fun _ => .ok 7) 0).2 = 0 := by
  refine ⟨?_, ?_, ?_, ?_, ?_⟩ <;> decide

/-- Claim C4 (code bug): reading `GDBType.code` raises `NameError` for every
engine type code, including `TYPE_CODE_INT` which the table maps to
`TypeCode.INT` — the method references the class attribute `CODE_MAPPING` as
a bare name, which is unbound in Python method scope, so the translation
table is never consulted and no `TypeCode` is ever returned. -/
theorem gdbtype_code_always_nameerror :
    (∀ c, GDBType_code c = Except.error (PyExc.nameError "CODE_MAPPING")) ∧
      CODE_MAPPING.lookup TYPE_CODE_INT = some TypeCode.INT := by
  constructor
  · intro c
    rfl
  · decide

theorem changed_of_snapshot (readNow readThen : String → Option Nat) :
    ∀ common : List String,
      ((common.map fun k => (k, readThen k)).filter fun kv =>
          decide (readNow kv.1 ≠ kv.2)).map Prod.fst =
        common.filter fun k => decide (readNow k ≠ readThen k) := by
  intro common
  induction common with
  | nil => rfl
  | cons k ks ih =>
    simp only [ne_eq, decide_not] at ih ⊢
    by_cases h : readNow k = readThen k
    · simp [List.filter_cons, h, ih]
    · simp [List.filter_cons, h, ih]

/-- Claim C5: after each `CONTINUE`/`STOP` event `update_last` replaces
`previous` with the former `last` and recomputes `last` as the snapshot of
the common registers; consequently `changed` equals the common registers
whose current read differs from the value recorded in `previous`, and after
two consecutive `STOP` events with no intervening register writes (both
snapshots and the query read the same register state `r1`) `changed` is
empty. -/
theorem update_last_and_changed (r1 r2 r : String → Option Nat) (common : List String)
    (s0 : RegSnap) :
    (update_last r1 common s0).previous = s0.last ∧
      (update_last r1 common s0).last = common.map (fun k => (k, r1 k)) ∧
      changed r (update_last r2 common (update_last r1 common s0)) =
        common.filter (fun k => decide (r k ≠ r1 k)) ∧
      changed r1 (update_last r1 common (update_last r1 common s0)) = [] := by
  refine ⟨rfl, rfl, ?_, ?_⟩
  · exact changed_of_snapshot r r1 common
  · exact (changed_of_snapshot r1 r1 common).trans (by simp)

/-- Claim C6 (corrected): `addrsz` masks the address to pointer width and
formats it as `0x`-prefixed lowercase hex, right-aligned with spaces to a
minimum total width of two characters per pointer byte including the prefix
— space padding, not zero padding. -/
theorem addrsz_space_padded (ptrsize : Nat) (address : Int) :
    addrsz ptrsize address = addrszAmended ptrsize address := rfl

/-- Counterexample to C6 as stated: with 4-byte pointers, address `0x12`
formats as `"    0x12"` — space-padded to total width 8 with the prefix
inside the field — not as a zero-padded 8-hex-digit field (`"0x00000012"`
or `"00000012"`). -/
theorem addrsz_not_zero_padded :
    addrsz 4 18 = "    0x12" ∧ addrsz 4 18 ≠ "0x00000012" ∧ addrsz 4 18 ≠ "00000012" := by
  refine ⟨?_, ?_, ?_⟩ <;> decide

/-- Claim C9: `read_thumb_bit` returns `none` on every architecture other
than `arm` and `armcm` (in particular on 64-bit ARM, `aarch64`) regardless of
register contents; on `arm` it returns bit 5 of `cpsr` when readable and
`none` otherwise; on `armcm` it returns bit 24 of `xpsr` when readable and
`none` otherwise. -/
theorem read_thumb_bit_cases (archName : String) (rd : String → Option Nat) :
    (archName ≠ "arm" → archName ≠ "armcm" → read_thumb_bit archName rd = none) ∧
      (∀ v, rd "cpsr" = some v → read_thumb_bit "arm" rd = some ((v >>> 5) &&& 1)) ∧
      (rd "cpsr" = none → read_thumb_bit "arm" rd = none) ∧
      (∀ v, rd "xpsr" = some v → read_thumb_bit "armcm" rd = some ((v >>> 24) &&& 1)) ∧
      (rd "xpsr" = none → read_thumb_bit "armcm" rd = none) ∧
      read_thumb_bit "aarch64" rd = none := by
  refine ⟨fun h1 h2 => ?_, fun v hv => ?_, fun hv => ?_, fun v hv => ?_, fun hv => ?_, ?_⟩
  · simp [read_thumb_bit, h1, h2]
  · simp [read_thumb_bit, hv]
  · simp [read_thumb_bit, hv]
  · simp [read_thumb_bit, hv]
  · simp [read_thumb_bit, hv]
  · rfl

/-- Witness for C9: at the concrete register state the `arm` branch extracts
bit 5 of `cpsr = 32`, the `armcm` branch finds `xpsr` absent, and `aarch64`
yields `none`. -/
theorem read_thumb_bit_cases_witness :
    rdC9 "cpsr" = some 32 ∧
      read_thumb_bit "arm" rdC9 = some ((32 >>> 5) &&& 1) ∧
      read_thumb_bit "armcm" rdC9 = none ∧
      read_thumb_bit "aarch64" rdC9 = none :=
  ⟨rfl, (read_thumb_bit_cases "arm" rdC9).2.1 32 rfl,
    (read_thumb_bit_cases "armcm" rdC9).2.2.2.2.1 rfl,
    (read_thumb_bit_cases "aarch64" rdC9).2.2.2.2.2⟩

/-- Claim C10: assigning a facade attribute whose name is neither `last` nor
`previous` stores no Python attribute at all — the attribute store is
untouched and the value is written to that register in the currently
selected frame. -/
theorem setattr_writes_register (s : FacadeState) (attr : String) (v : Int)
    (h1 : attr ≠ "last") (h2 : attr ≠ "previous") :
    (module_setattr s attr v).pyAttrs = s.pyAttrs ∧
      (module_setattr s attr v).frameRegs = reg_write s.frameRegs attr v := by
  simp [module_setattr, h1, h2]

/-- Witness for C10: assigning `rax` on an empty facade state leaves the
attribute store empty and writes `rax = 7` into the selected frame. -/
theorem setattr_writes_register_witness :
    (module_setattr ⟨[], []⟩ "rax" 7).pyAttrs = [] ∧
      (module_setattr ⟨[], []⟩ "rax" 7).frameRegs = reg_write [] "rax" 7 :=
  setattr_writes_register ⟨[], []⟩ "rax" 7 (by decide) (by decide)

theorem find_upper_loop_spec (readable : Nat → Bool) (ptrmask : Nat) :
    ∀ (fuel n A : Nat),
      (∀ i, i < n → readable (A + i * PAGE_SIZE) = true) →
      readable (A + n * PAGE_SIZE) = false →
      A + min n fuel * PAGE_SIZE ≤ ptrmask →
      find_upper_loop readable ptrmask fuel A = A + min n fuel * PAGE_SIZE := by
  intro fuel
  induction fuel with
  | zero => intro n A _ _ _; simp [find_upper_loop]
  | succ fuel ih =>
    intro n A h1 h2 h3
    match n with
    | 0 =>
      have hra : readable A = false := by simpa using h2
      simp [find_upper_loop, hra]
    | n' + 1 =>
      have hra : readable A = true := by simpa using h1 0 (Nat.succ_pos n')
      obtain ⟨m, hm⟩ : ∃ m, min n' fuel = m := ⟨_, rfl⟩
      have hmin : min (n' + 1) (fuel + 1) = m + 1 := by omega
      rw [hmin] at h3 ⊢
      have hb : ¬ ptrmask < A + PAGE_SIZE := by
        have hle : PAGE_SIZE ≤ (m + 1) * PAGE_SIZE :=
          Nat.le_mul_of_pos_left PAGE_SIZE (Nat.succ_pos m)
        omega
      have h1' : ∀ i, i < n' → readable (A + PAGE_SIZE + i * PAGE_SIZE) = true := by
        intro i hi
        have he : A + PAGE_SIZE + i * PAGE_SIZE = A + (i + 1) * PAGE_SIZE := by ring
        rw [he]
        exact h1 (i + 1) (Nat.succ_lt_succ hi)
      have h2' : readable (A + PAGE_SIZE + n' * PAGE_SIZE) = false := by
        have he : A + PAGE_SIZE + n' * PAGE_SIZE = A + (n' + 1) * PAGE_SIZE := by ring
        rw [he]
        exact h2
      have h3' : A + PAGE_SIZE + min n' fuel * PAGE_SIZE ≤ ptrmask := by
        rw [hm]
        have he : A + PAGE_SIZE + m * PAGE_SIZE = A + (m + 1) * PAGE_SIZE := by ring
        rw [he]
        exact h3
      have hrec := ih n' (A + PAGE_SIZE) h1' h2' h3'
      rw [find_upper_loop, hra, if_pos rfl, if_neg hb, hrec, hm]
      ring

theorem find_lower_loop_spec (readable : Int → Bool) :
    ∀ (fuel n : Nat) (A : Int),
      (∀ i : Nat, i < n → readable (A - i * PAGE_SIZE) = true) →
      readable (A - n * PAGE_SIZE) = false →
      0 ≤ A - min n fuel * PAGE_SIZE →
      find_lower_loop readable fuel A =
        A - (if n < fuel then (n : Int) - 1 else (fuel : Int)) * PAGE_SIZE := by
  intro fuel
  induction fuel with
  | zero =>
    intro n A _ _ _
    simp [find_lower_loop]
  | succ fuel ih =>
    intro n A h1 h2 h3
    match n with
    | 0 =>
      have hra : readable A = false := by simpa using h2
      rw [find_lower_loop, hra]
      simp only [if_neg (Bool.false_ne_true), Nat.zero_lt_succ, if_pos]
      push_cast
      ring
    | n' + 1 =>
      have hra : readable A = true := by simpa using h1 0 (Nat.succ_pos n')
      obtain ⟨m, hm⟩ : ∃ m, min n' fuel = m := ⟨_, rfl⟩
      have hmin : min (n' + 1) (fuel + 1) = m + 1 := by omega
      rw [hmin] at h3
      have hm0 : (0 : Int) ≤ (m : Int) * (PAGE_SIZE : Int) := by positivity
      have hcast : ((m + 1 : Nat) : Int) * (PAGE_SIZE : Int) =
          (m : Int) * PAGE_SIZE + PAGE_SIZE := by push_cast; ring
      rw [hcast] at h3
      have hb : ¬ A - (PAGE_SIZE : Int) < 0 := by intro hlt; linarith
      have h1' : ∀ i : Nat, i < n' →
          readable (A - (PAGE_SIZE : Int) - i * PAGE_SIZE) = true := by
        intro i hi
        have he : A - (PAGE_SIZE : Int) - (i : Int) * PAGE_SIZE =
            A - ((i + 1 : Nat) : Int) * PAGE_SIZE := by push_cast; ring
        rw [he]
        exact h1 (i + 1) (Nat.succ_lt_succ hi)
      have h2' : readable (A - (PAGE_SIZE : Int) - n' * PAGE_SIZE) = false := by
        have he : A - (PAGE_SIZE : Int) - (n' : Int) * PAGE_SIZE =
            A - ((n' + 1 : Nat) : Int) * PAGE_SIZE := by push_cast; ring
        rw [he]
        exact h2
      have h3' : 0 ≤ A - (PAGE_SIZE : Int) - ((min n' fuel : Nat) : Int) * PAGE_SIZE := by
        rw [hm]
        linarith
      have hrec := ih n' (A - (PAGE_SIZE : Int)) h1' h2' h3'
      rw [find_lower_loop, hra, if_pos rfl, if_neg hb, hrec]
      by_cases hc : n' < fuel
      · rw [if_pos hc, if_pos (Nat.succ_lt_succ hc)]
        push_cast
        ring
      · rw [if_neg hc, if_neg (fun h => hc (Nat.lt_of_succ_lt_succ h))]
        push_cast
        ring

/-- Claim C7 (corrected): for a start with exactly `nU` consecutive readable
pages upward from the page-aligned start, `find_upper_boundary` returns the
aligned start plus `min nU max_pages` pages (provided no step passes
`ptrmask`); for exactly `nL` readable pages downward, `find_lower_boundary`
returns the aligned start minus `nL - 1` pages when `nL < max_pages` (one
page short of the claim's `N`: the failing probe's handler adds a page back;
for `nL = 0` this lands one page above the start) and minus `max_pages`
pages when `nL ≥ max_pages` (provided no step goes below 0) — not `N` pages
in both directions, and not the address-space bound when `N` exceeds
`max_pages`. -/
theorem boundary_search_behaviour (ru : Nat → Bool) (rl : Int → Bool)
    (ptrmask aU aL nU nL maxU maxL : Nat)
    (hu1 : ∀ i, i < nU → ru (page_align aU + i * PAGE_SIZE) = true)
    (hu2 : ru (page_align aU + nU * PAGE_SIZE) = false)
    (hu3 : page_align aU + min nU maxU * PAGE_SIZE ≤ ptrmask)
    (hl1 : ∀ i : Nat, i < nL → rl ((page_align aL : Int) - i * PAGE_SIZE) = true)
    (hl2 : rl ((page_align aL : Int) - nL * PAGE_SIZE) = false)
    (hl3 : 0 ≤ (page_align aL : Int) - min nL maxL * PAGE_SIZE) :
    find_upper_boundary ru ptrmask aU maxU = page_align aU + min nU maxU * PAGE_SIZE ∧
      find_lower_boundary rl aL maxL =
        (page_align aL : Int) -
          (if nL < maxL then (nL : Int) - 1 else (maxL : Int)) * PAGE_SIZE :=
  ⟨find_upper_loop_spec ru ptrmask maxU nU (page_align aU) hu1 hu2 hu3,
   find_lower_loop_spec rl maxL nL ((page_align aL : Nat) : Int) hl1 hl2 hl3⟩

/-- Witness for C7: three readable pages upward from 0 with `max_pages = 5`
give `0 + 3` pages; two readable pages downward from 8192 give `8192 - 1`
page. -/
theorem boundary_search_behaviour_witness :
    (∀ i, i < 3 → ruC7 (page_align 5 + i * PAGE_SIZE) = true) ∧
      find_upper_boundary ruC7 4294967295 5 5 = page_align 5 + min 3 5 * PAGE_SIZE ∧
      find_lower_boundary rlC7 8192 5 =
        (page_align 8192 : Int) - (if 2 < 5 then (2 : Int) - 1 else (5 : Int)) * PAGE_SIZE :=
  ⟨by decide,
   (boundary_search_behaviour ruC7 rlC7 4294967295 5 8192 3 2 5 5 (by decide) (by decide)
      (by decide) (by decide) (by decide) (by decide)).1,
   (boundary_search_behaviour ruC7 rlC7 4294967295 5 8192 3 2 5 5 (by decide) (by decide)
      (by decide) (by decide) (by decide) (by decide)).2⟩

/-- Counterexample to C7 as stated: with exactly 2 readable pages downward
from 8192 and `max_pages = 5`, `find_lower_boundary` returns 4096, not the
address `8192 - 2 * 4096 = 0` that is exactly N pages from the start; and
with 3 readable pages upward from 0 but `max_pages = 2`,
`find_upper_boundary` returns `2 * 4096 = 8192`, not the address-space bound
`ptrmask`. -/
theorem boundary_search_counterexample :
    find_lower_boundary rlC7 8192 5 = 4096 ∧ (4096 : Int) ≠ 8192 - 2 * 4096 ∧
      find_upper_boundary ruC7 4294967295 0 2 = 8192 ∧ (8192 : Nat) ≠ 4294967295 := by
  refine ⟨?_, ?_, ?_, ?_⟩ <;> decide

theorem restAfterHead_eq (p : List Char) :
    ∀ s r, restAfterHead p s = some r → s = p ++ r := by
  induction p with
  | nil =>
    intro s r h
    simp only [restAfterHead, Option.some.injEq] at h
    simp [h]
  | cons a p' ih =>
    intro s r h
    match s with
    | [] => simp [restAfterHead] at h
    | b :: s' =>
      by_cases hab : a = b
      · simp only [restAfterHead, if_pos hab] at h
        rw [ih s' r h, hab]
        rfl
      · simp [restAfterHead, hab] at h

theorem restAfterHead_append (p r : List Char) : restAfterHead p (p ++ r) = some r := by
  induction p with
  | nil => rfl
  | cons a p' ih => simp [restAfterHead, ih]

theorem nameMatch_eq (reg s r2 : List Char) (h : nameMatch reg s = some r2) :
    s = reg ++ r2 ∧ boundaryAfterOk r2 = true := by
  unfold nameMatch at h
  split at h
  next rest heq =>
    split at h
    next hb =>
      injection h with h2
      subst h2
      exact ⟨restAfterHead_eq reg s rest heq, hb⟩
    next => simp at h
  next => simp at h

theorem nameMatch_mk (reg r2 : List Char) (hb : boundaryAfterOk r2 = true) :
    nameMatch reg (reg ++ r2) = some r2 := by
  unfold nameMatch
  rw [restAfterHead_append]
  simp [hb]

theorem nameMatch_length (reg s r2 : List Char) (h : nameMatch reg s = some r2) :
    r2.length ≤ s.length := by
  rw [(nameMatch_eq reg s r2 h).1, List.length_append]
  omega

theorem nameMatch_cons_word_length (reg : List Char) (c : Char) (rest r2 : List Char)
    (hc : isWordChar c = true) (h : nameMatch reg (c :: rest) = some r2) :
    r2.length ≤ rest.length := by
  obtain ⟨he, hb⟩ := nameMatch_eq reg (c :: rest) r2 h
  match reg with
  | [] =>
    rw [List.nil_append] at he
    rw [← he] at hb
    simp [boundaryAfterOk, hc] at hb
  | r0 :: rtl =>
    have hlen : (c :: rest).length = (r0 :: rtl).length + r2.length := by
      rw [he, List.length_append]
    simp only [List.length_cons] at hlen
    omega

theorem takeRun_append (s : List Char) : (takeRun s).1 ++ (takeRun s).2 = s := by
  induction s with
  | nil => rfl
  | cons c rest ih =>
    cases hic : isWordChar c with
    | true => simp [takeRun, hic, ih]
    | false => simp [takeRun, hic]

theorem takeRun_word (s : List Char) : ∀ c ∈ (takeRun s).1, isWordChar c = true := by
  induction s with
  | nil => intro c hc; simp [takeRun] at hc
  | cons d rest ih =>
    cases hid : isWordChar d with
    | true =>
      intro c hc
      simp only [takeRun, hid, if_true, List.mem_cons] at hc
      rcases hc with h | h
      · rw [h]; exact hid
      · exact ih c h
    | false => intro c hc; simp [takeRun, hid] at hc

theorem takeRun_boundary (s : List Char) : boundaryAfterOk (takeRun s).2 = true := by
  induction s with
  | nil => rfl
  | cons d rest ih =>
    cases hid : isWordChar d with
    | true => simpa [takeRun, hid] using ih
    | false => simp [takeRun, hid, boundaryAfterOk]

theorem takeRun_length (s : List Char) : (takeRun s).2.length ≤ s.length := by
  have h := takeRun_append s
  have : (takeRun s).1.length + (takeRun s).2.length = s.length := by
    rw [← List.length_append, h]
  omega

theorem takeRun_of (w r : List Char) (hw : ∀ c ∈ w, isWordChar c = true)
    (hb : boundaryAfterOk r = true) : takeRun (w ++ r) = (w, r) := by
  induction w with
  | nil =>
    simp only [List.nil_append]
    match r with
    | [] => rfl
    | c :: rest =>
      have hc : isWordChar c = false := by
        cases hic : isWordChar c with
        | false => rfl
        | true => rw [boundaryAfterOk, hic] at hb; simp at hb
      simp [takeRun, hc]
  | cons a w' ih =>
    have ha : isWordChar a = true := hw a (by simp)
    have ih' := ih fun c hc => hw c (by simp [hc])
    simp [takeRun, ha, ih']

theorem segsGo_fuel : ∀ f1 f2 s, s.length ≤ f1 → s.length ≤ f2 →
    segsGo f1 s = segsGo f2 s := by
  intro f1
  induction f1 with
  | zero =>
    intro f2 s h1 _
    have hs : s = [] := List.length_eq_zero.mp (Nat.le_zero.mp h1)
    subst hs
    cases f2 <;> rfl
  | succ f1 ih =>
    intro f2 s h1 h2
    match s with
    | [] => cases f2 <;> rfl
    | c :: rest =>
      match f2 with
      | 0 => simp at h2
      | f2' + 1 =>
        simp only [List.length_cons] at h1 h2
        cases hic : isWordChar c with
        | true =>
          have hl := takeRun_length rest
          simp only [segsGo, hic, if_true]
          rw [ih f2' ((takeRun rest).2) (by omega) (by omega)]
        | false =>
          simp only [segsGo, hic, Bool.false_eq_true, if_false]
          rw [ih f2' rest (by omega) (by omega)]

theorem segs_cons_word (c : Char) (rest : List Char) (hc : isWordChar c = true) :
    segs (c :: rest) = Seg.word (c :: (takeRun rest).1) :: segs ((takeRun rest).2) := by
  have h1 : segs (c :: rest) = segsGo (rest.length + 1) (c :: rest) := rfl
  rw [h1]
  simp only [segsGo, hc, if_true]
  congr 1
  exact segsGo_fuel rest.length ((takeRun rest).2).length ((takeRun rest).2)
    (takeRun_length rest) le_rfl

theorem segs_cons_sym (c : Char) (rest : List Char) (hc : isWordChar c = false) :
    segs (c :: rest) = Seg.sym c :: segs rest := by
  have h1 : segs (c :: rest) = segsGo (rest.length + 1) (c :: rest) := rfl
  rw [h1]
  simp only [segsGo, hc, Bool.false_eq_true, if_false]
  rfl

theorem lastIsWord_of_good : ∀ reg : List Char, reg ≠ [] →
    (∀ c ∈ reg, isWordChar c = true) → lastIsWord reg = true := by
  intro reg
  induction reg with
  | nil => intro h _; exact absurd rfl h
  | cons a rtl ih =>
    intro _ hw
    match rtl with
    | [] =>
      show lastIsWord [a] = true
      simp only [lastIsWord, List.getLast?_singleton]
      exact hw a (by simp)
    | b :: rtl' =>
      have hstep : lastIsWord (a :: b :: rtl') = lastIsWord (b :: rtl') := by
        simp [lastIsWord, List.getLast?_cons_cons]
      rw [hstep]
      exact ih (by simp) fun c hc => hw c (by simp [hc])

theorem subRegAux_zero (reg : List Char) (prevw : Bool) (s : List Char) :
    subRegAux reg 0 prevw s = s := rfl

theorem subRegAux_nil (reg : List Char) (fuel : Nat) (prevw : Bool) :
    subRegAux reg fuel prevw [] = [] := by cases fuel <;> rfl

theorem subRegAux_dollar (reg : List Char) (fuel : Nat) (prevw : Bool) (rest : List Char) :
    subRegAux reg (fuel + 1) prevw ('$' :: rest) =
      match nameMatch reg rest with
      | some r2 => '$' :: (reg ++ subRegAux reg fuel (lastIsWord reg) r2)
      | none => '$' :: subRegAux reg fuel false rest := by
  rfl

theorem subRegAux_step (reg : List Char) (fuel : Nat) (prevw : Bool) (c : Char)
    (rest : List Char) (hd : ¬ c = '$') :
    subRegAux reg (fuel + 1) prevw (c :: rest) =
      if !prevw && isWordChar c then
        match nameMatch reg (c :: rest) with
        | some r2 => '$' :: (reg ++ subRegAux reg fuel (lastIsWord reg) r2)
        | none => c :: subRegAux reg fuel true rest
      else c :: subRegAux reg fuel (isWordChar c) rest := by
  simp only [subRegAux, if_neg hd]

theorem subRegAux_fuel (reg : List Char) : ∀ f1 f2 prevw s, s.length ≤ f1 →
    s.length ≤ f2 → subRegAux reg f1 prevw s = subRegAux reg f2 prevw s := by
  intro f1
  induction f1 with
  | zero =>
    intro f2 prevw s h1 _
    have hs : s = [] := List.length_eq_zero.mp (Nat.le_zero.mp h1)
    subst hs
    rw [subRegAux_nil, subRegAux_nil]
  | succ f1 ih =>
    intro f2 prevw s h1 h2
    match s with
    | [] => rw [subRegAux_nil, subRegAux_nil]
    | c :: rest =>
      match f2 with
      | 0 => simp at h2
      | f2' + 1 =>
        simp only [List.length_cons] at h1 h2
        by_cases hd : c = '$'
        · subst hd
          rw [subRegAux_dollar, subRegAux_dollar]
          cases hm : nameMatch reg rest with
          | some r2 =>
            have hr2 := nameMatch_length reg rest r2 hm
            simp only [hm]
            rw [ih f2' (lastIsWord reg) r2 (by omega) (by omega)]
          | none =>
            simp only [hm]
            rw [ih f2' false rest (by omega) (by omega)]
        · rw [subRegAux_step reg f1 prevw c rest hd, subRegAux_step reg f2' prevw c rest hd]
          by_cases hw : (!prevw && isWordChar c) = true
          · rw [if_pos hw, if_pos hw]
            cases hm : nameMatch reg (c :: rest) with
            | some r2 =>
              have hwc : isWordChar c = true := by
                cases hic : isWordChar c
                · rw [hic] at hw; simp at hw
                · rfl
              have hr2 := nameMatch_cons_word_length reg c rest r2 hwc hm
              simp only [hm]
              rw [ih f2' (lastIsWord reg) r2 (by omega) (by omega)]
            | none =>
              simp only [hm]
              rw [ih f2' true rest (by omega) (by omega)]
          · rw [if_neg hw, if_neg hw]
            rw [ih f2' (isWordChar c) rest (by omega) (by omega)]

theorem subRegAux_prevw (reg : List Char) (fuel : Nat) (b b' : Bool) (s : List Char)
    (hb : boundaryAfterOk s = true) :
    subRegAux reg fuel b s = subRegAux reg fuel b' s := by
  match fuel with
  | 0 => rfl
  | fuel + 1 =>
    match s with
    | [] => rfl
    | c :: rest =>
      have hc : isWordChar c = false := by
        rw [boundaryAfterOk] at hb
        cases hic : isWordChar c
        · rfl
        · rw [hic] at hb; simp at hb
      by_cases hd : c = '$'
      · subst hd
        rw [subRegAux_dollar, subRegAux_dollar]
      · rw [subRegAux_step reg fuel b c rest hd, subRegAux_step reg fuel b' c rest hd]
        simp [hc]

theorem subRegAux_run (reg : List Char) : ∀ t : List Char,
    subRegAux reg t.length true t =
      (takeRun t).1 ++ subRegAux reg (takeRun t).2.length false (takeRun t).2 := by
  intro t
  induction t with
  | nil => rfl
  | cons d t' ih =>
    cases hid : isWordChar d with
    | true =>
      have hd : ¬ d = '$' := by
        intro h
        rw [h] at hid
        have hdw : isWordChar '$' = false := by decide
        simp [hdw] at hid
      rw [show (d :: t').length = t'.length + 1 from rfl]
      rw [subRegAux_step reg t'.length true d t' hd]
      simp only [Bool.not_true, Bool.false_and, Bool.false_eq_true, if_false]
      rw [hid, ih]
      simp [takeRun, hid]
    | false =>
      have hb : boundaryAfterOk (d :: t') = true := by simp [boundaryAfterOk, hid]
      rw [subRegAux_prevw reg (d :: t').length true false (d :: t') hb]
      simp [takeRun, hid]

theorem segs_of_name (reg r2 : List Char) (hg : goodWord reg)
    (hb : boundaryAfterOk r2 = true) :
    segs (reg ++ r2) = Seg.word reg :: segs r2 := by
  obtain ⟨hne, hw⟩ := hg
  match reg, hne with
  | r0 :: rtl, _ =>
    have h0 : isWordChar r0 = true := hw r0 (by simp)
    have hcons : (r0 :: rtl) ++ r2 = r0 :: (rtl ++ r2) := rfl
    rw [hcons, segs_cons_word r0 (rtl ++ r2) h0]
    rw [takeRun_of rtl r2 (fun c hc => hw c (by simp [hc])) hb]

theorem applySegs_afterDollar (reg : List Char) (t : List Char)
    (hn : nameMatch reg t = none) :
    applySegs (fun w => w == reg) true (segs t) =
      applySegs (fun w => w == reg) false (segs t) := by
  match t with
  | [] => rfl
  | d :: rest =>
    cases hid : isWordChar d with
    | false =>
      rw [segs_cons_sym d rest hid]
      rfl
    | true =>
      rw [segs_cons_word d rest hid]
      have hwne : ((d :: (takeRun rest).1) == reg) = false := by
        apply beq_eq_false_iff_ne.mpr
        intro heq
        have hsplit : reg ++ (takeRun rest).2 = d :: rest := by
          rw [← heq, List.cons_append, takeRun_append rest]
        have hmk := nameMatch_mk reg ((takeRun rest).2) (takeRun_boundary rest)
        rw [hsplit, hn] at hmk
        exact Option.noConfusion hmk
      simp [applySegs, hwne]

theorem subRegAux_spec (reg : List Char) (hg : goodWord reg) :
    ∀ fuel s, s.length ≤ fuel →
      subRegAux reg s.length false s =
        flat (applySegs (fun w => w == reg) false (segs s)) := by
  intro fuel
  induction fuel with
  | zero =>
    intro s h
    have hs : s = [] := List.length_eq_zero.mp (Nat.le_zero.mp h)
    subst hs
    rfl
  | succ fuel ih =>
    intro s h
    match s with
    | [] => rfl
    | c :: rest =>
      simp only [List.length_cons] at h
      by_cases hd : c = '$'
      · subst hd
        have hcw : isWordChar '$' = false := by decide
        rw [show ('$' :: rest).length = rest.length + 1 from rfl]
        rw [subRegAux_dollar reg rest.length false rest]
        rw [segs_cons_sym '$' rest hcw]
        cases hm : nameMatch reg rest with
        | some r2 =>
          obtain ⟨he, hb2⟩ := nameMatch_eq reg rest r2 hm
          have hlen2 : r2.length ≤ rest.length := nameMatch_length reg rest r2 hm
          simp only [hm]
          rw [lastIsWord_of_good reg hg.1 hg.2]
          rw [subRegAux_prevw reg rest.length true false r2 hb2]
          rw [subRegAux_fuel reg rest.length r2.length false r2 hlen2 le_rfl]
          rw [ih r2 (by omega)]
          rw [he, segs_of_name reg r2 hg hb2]
          simp [applySegs, flat]
        | none =>
          simp only [hm]
          rw [ih rest (by omega)]
          have hout : applySegs (fun w => w == reg) false (Seg.sym '$' :: segs rest) =
              Seg.sym '$' :: applySegs (fun w => w == reg) true (segs rest) := by
            simp [applySegs]
          rw [hout, applySegs_afterDollar reg rest hm]
          rfl
      · rw [show (c :: rest).length = rest.length + 1 from rfl]
        rw [subRegAux_step reg rest.length false c rest hd]
        cases hic : isWordChar c with
        | true =>
          simp only [Bool.not_false, Bool.true_and, hic, if_true]
          cases hm : nameMatch reg (c :: rest) with
          | some r2 =>
            obtain ⟨he, hb2⟩ := nameMatch_eq reg (c :: rest) r2 hm
            have hlen2 : r2.length ≤ rest.length :=
              nameMatch_cons_word_length reg c rest r2 hic hm
            simp only [hm]
            rw [lastIsWord_of_good reg hg.1 hg.2]
            rw [subRegAux_prevw reg rest.length true false r2 hb2]
            rw [subRegAux_fuel reg rest.length r2.length false r2 hlen2 le_rfl]
            rw [ih r2 (by omega)]
            rw [he, segs_of_name reg r2 hg hb2]
            have hrr : (reg == reg) = true := beq_self_eq_true reg
            simp [applySegs, flat, hrr]
          | none =>
            simp only [hm]
            rw [subRegAux_run reg rest]
            have hlen2 : (takeRun rest).2.length ≤ rest.length := takeRun_length rest
            rw [ih ((takeRun rest).2) (by omega)]
            rw [segs_cons_word c rest hic]
            have hwne : ((c :: (takeRun rest).1) == reg) = false := by
              apply beq_eq_false_iff_ne.mpr
              intro heq
              have hsplit : reg ++ (takeRun rest).2 = c :: rest := by
                rw [← heq, List.cons_append, takeRun_append rest]
              have hmk := nameMatch_mk reg ((takeRun rest).2) (takeRun_boundary rest)
              rw [hsplit, hm] at hmk
              exact Option.noConfusion hmk
            simp [applySegs, flat, hwne]
        | false =>
          simp only [Bool.not_false, Bool.true_and, hic, Bool.false_eq_true, if_false]
          rw [ih rest (by omega)]
          rw [segs_cons_sym c rest hic]
          have hcne : (c == '$') = false := by
            apply beq_eq_false_iff_ne.mpr
            exact hd
          simp [applySegs, flat, hcne]

theorem headNotWord_boundary (l : List Seg) (hWF : SegsWF l) (hh : headNotWord l) :
    boundaryAfterOk (flat l) = true := by
  match l, hWF, hh with
  | [], _, _ => rfl
  | Seg.sym c :: rest, ⟨hc, _⟩, _ =>
    show boundaryAfterOk (c :: flat rest) = true
    simp [boundaryAfterOk, hc]
  | Seg.word w :: rest, _, hh => exact hh.elim

theorem segs_wf : ∀ fuel s, s.length ≤ fuel → SegsWF (segs s) := by
  intro fuel
  induction fuel with
  | zero =>
    intro s h
    have hs : s = [] := List.length_eq_zero.mp (Nat.le_zero.mp h)
    subst hs
    trivial
  | succ fuel ih =>
    intro s h
    match s with
    | [] => trivial
    | c :: rest =>
      simp only [List.length_cons] at h
      cases hic : isWordChar c with
      | true =>
        rw [segs_cons_word c rest hic]
        refine ⟨⟨by simp, ?_⟩, ?_, ?_⟩
        · intro x hx
          rcases List.mem_cons.mp hx with hx | hx
          · rw [hx]; exact hic
          · exact takeRun_word rest x hx
        · have hb := takeRun_boundary rest
          cases htr : (takeRun rest).2 with
          | nil => trivial
          | cons d tr' =>
            rw [htr] at hb
            have hdw : isWordChar d = false := by
              cases hdc : isWordChar d
              · rfl
              · rw [boundaryAfterOk, hdc] at hb; simp at hb
            rw [segs_cons_sym d tr' hdw]
            trivial
        · exact ih ((takeRun rest).2) (by have := takeRun_length rest; omega)
      | false =>
        rw [segs_cons_sym c rest hic]
        exact ⟨hic, ih rest (by omega)⟩

theorem segs_flat : ∀ l : List Seg, SegsWF l → segs (flat l) = l := by
  intro l
  induction l with
  | nil => intro _; rfl
  | cons sg rest ih =>
    intro hWF
    match sg, hWF with
    | Seg.sym c, ⟨hc, hrest⟩ =>
      show segs (c :: flat rest) = Seg.sym c :: rest
      rw [segs_cons_sym c (flat rest) hc, ih hrest]
    | Seg.word w, ⟨hgw, hh, hrest⟩ =>
      show segs (w ++ flat rest) = Seg.word w :: rest
      rw [segs_of_name w (flat rest) hgw (headNotWord_boundary rest hrest hh), ih hrest]

theorem applySegs_wf (mem : List Char → Bool) :
    ∀ l : List Seg, SegsWF l → ∀ b, SegsWF (applySegs mem b l) ∧
      (headNotWord l → headNotWord (applySegs mem b l)) := by
  intro l
  induction l with
  | nil => intro _ b; exact ⟨trivial, fun _ => trivial⟩
  | cons sg rest ih =>
    intro hWF b
    match sg, hWF with
    | Seg.sym c, ⟨hc, hrest⟩ =>
      constructor
      · show SegsWF (Seg.sym c :: applySegs mem (c == '$') rest)
        exact ⟨hc, (ih hrest (c == '$')).1⟩
      · intro _; trivial
    | Seg.word w, ⟨hgw, hh, hrest⟩ =>
      have hstep : applySegs mem b (Seg.word w :: rest) =
          (if mem w && !b then [Seg.sym '$', Seg.word w] else [Seg.word w]) ++
            applySegs mem false rest := rfl
      rw [hstep]
      by_cases hw : (mem w && !b) = true
      · rw [if_pos hw]
        constructor
        · show SegsWF (Seg.sym '$' :: Seg.word w :: applySegs mem false rest)
          exact ⟨by decide, hgw, (ih hrest false).2 hh, (ih hrest false).1⟩
        · intro _; trivial
      · rw [if_neg hw]
        constructor
        · show SegsWF (Seg.word w :: applySegs mem false rest)
          exact ⟨hgw, (ih hrest false).2 hh, (ih hrest false).1⟩
        · intro hcontra; exact hcontra.elim

theorem flat_segs : ∀ fuel s, s.length ≤ fuel → flat (segs s) = s := by
  intro fuel
  induction fuel with
  | zero =>
    intro s h
    have hs : s = [] := List.length_eq_zero.mp (Nat.le_zero.mp h)
    subst hs
    rfl
  | succ fuel ih =>
    intro s h
    match s with
    | [] => rfl
    | c :: rest =>
      simp only [List.length_cons] at h
      cases hic : isWordChar c with
      | true =>
        rw [segs_cons_word c rest hic]
        show (c :: (takeRun rest).1) ++ flat (segs ((takeRun rest).2)) = c :: rest
        rw [ih ((takeRun rest).2) (by have := takeRun_length rest; omega)]
        rw [List.cons_append, takeRun_append rest]
      | false =>
        rw [segs_cons_sym c rest hic]
        show c :: flat (segs rest) = c :: rest
        rw [ih rest (by omega)]

theorem applySegs_noop (mem : List Char → Bool) (hmem : ∀ w, mem w = false) :
    ∀ (b : Bool) (l : List Seg), applySegs mem b l = l := by
  intro b l
  induction l generalizing b with
  | nil => rfl
  | cons sg rest ih =>
    match sg with
    | Seg.sym c =>
      show Seg.sym c :: applySegs mem (c == '$') rest = Seg.sym c :: rest
      rw [ih]
    | Seg.word w =>
      have hstep : applySegs mem b (Seg.word w :: rest) =
          (if mem w && !b then [Seg.sym '$', Seg.word w] else [Seg.word w]) ++
            applySegs mem false rest := rfl
      rw [hstep, hmem w]
      simp [ih]

theorem applySegs_comp (m1 m2 : List Char → Bool) :
    ∀ (l : List Seg) (b : Bool),
      applySegs m2 b (applySegs m1 b l) =
        applySegs (fun w => m1 w || m2 w) b l := by
  intro l
  induction l with
  | nil => intro b; rfl
  | cons sg rest ih =>
    intro b
    match sg with
    | Seg.sym c =>
      show Seg.sym c :: applySegs m2 (c == '$') (applySegs m1 (c == '$') rest) =
        Seg.sym c :: applySegs (fun w => m1 w || m2 w) (c == '$') rest
      rw [ih (c == '$')]
    | Seg.word w =>
      have e1 : ∀ (m : List Char → Bool) (b' : Bool) (t : List Seg),
          applySegs m b' (Seg.word w :: t) =
            (if m w && !b' then [Seg.sym '$', Seg.word w] else [Seg.word w]) ++
              applySegs m false t := fun m b' t => rfl
      have esym : ∀ (m : List Char → Bool) (b' : Bool) (c : Char) (t : List Seg),
          applySegs m b' (Seg.sym c :: t) = Seg.sym c :: applySegs m (c == '$') t :=
        fun m b' c t => rfl
      cases b with
      | true =>
        rw [e1 m1 true rest]
        simp only [Bool.not_true, Bool.and_false, Bool.false_eq_true, if_false,
          List.singleton_append]
        rw [e1 m2 true (applySegs m1 false rest)]
        simp only [Bool.not_true, Bool.and_false, Bool.false_eq_true, if_false,
          List.singleton_append]
        rw [e1 (fun w' => m1 w' || m2 w') true rest]
        simp only [Bool.not_true, Bool.and_false, Bool.false_eq_true, if_false,
          List.singleton_append]
        rw [ih false]
      | false =>
        rw [e1 m1 false rest, e1 (fun w' => m1 w' || m2 w') false rest]
        simp only [Bool.not_false, Bool.and_true]
        cases h1 : m1 w with
        | true =>
          simp only [if_true, Bool.true_or, List.cons_append, List.nil_append]
          rw [esym m2 false '$' (Seg.word w :: applySegs m1 false rest)]
          have hdol : ('$' == '$') = true := rfl
          rw [hdol, e1 m2 true (applySegs m1 false rest)]
          simp only [Bool.not_true, Bool.and_false, Bool.false_eq_true, if_false,
            List.singleton_append]
          rw [ih false]
        | false =>
          simp only [Bool.false_eq_true, if_false, List.singleton_append, Bool.false_or]
          rw [e1 m2 false (applySegs m1 false rest)]
          simp only [Bool.not_false, Bool.and_true]
          rw [ih false]

theorem applySegs_congr (m1 m2 : List Char → Bool) (hm : ∀ w, m1 w = m2 w) :
    ∀ (b : Bool) (l : List Seg), applySegs m1 b l = applySegs m2 b l := by
  have hfun : m1 = m2 := funext hm
  intro b l
  rw [hfun]

theorem fix_core : ∀ regs : List (List Char), (∀ r ∈ regs, goodWord r) →
    ∀ s : List Char, fix regs s = fixSpec regs s := by
  intro regs
  induction regs with
  | nil =>
    intro _ s
    show s = fixSpec [] s
    unfold fixSpec
    rw [applySegs_noop (memReg []) (fun w => rfl) false (segs s)]
    rw [flat_segs s.length s le_rfl]
  | cons r rs ih =>
    intro h s
    have hgr : goodWord r := h r (by simp)
    have hrs : ∀ r' ∈ rs, goodWord r' := fun r' hr' => h r' (by simp [hr'])
    show fix rs (subReg r s) = fixSpec (r :: rs) s
    rw [ih hrs (subReg r s)]
    unfold fixSpec
    rw [show subReg r s = flat (applySegs (fun w => w == r) false (segs s)) from
      subRegAux_spec r hgr s.length s le_rfl]
    rw [segs_flat _ ((applySegs_wf _ _ (segs_wf s.length s le_rfl) false).1)]
    rw [applySegs_comp (fun w => w == r) (memReg rs) (segs s) false]
    apply congrArg flat
    apply applySegs_congr
    intro w
    have hcomm : (w == r) = (r == w) := by
      by_cases hwr : w = r
      · simp [hwr]
      · simp [beq_eq_false_iff_ne.mpr hwr, beq_eq_false_iff_ne.mpr (Ne.symm hwr)]
    show ((w == r) || memReg rs w) = memReg (r :: rs) w
    rw [hcomm]
    rfl

/-- Claim C8: for every expression, `fix` rewrites exactly the maximal
word-bounded occurrences of register names (each name nonempty and made of
word characters, as register names are) into the engine's `$`-prefixed
reference form, and never rewrites a name occurring as a proper substring of
a longer identifier — `fix` coincides with the token-level specification
`fixSpec` on the maximal-word-run decomposition. -/
theorem fix_rewrites_word_tokens (regs : List (List Char))
    (h : ∀ r ∈ regs, r ≠ [] ∧ ∀ c ∈ r, isWordChar c = true) (s : List Char) :
    fix regs s = fixSpec regs s :=
  fix_core regs h s

/-- Witness for C8: the x86 names `eax`, `ebx` are nonempty all-word names,
and on the concrete expression `eax + ebx` the scanner agrees with the
token-level specification. -/
theorem fix_rewrites_word_tokens_witness :
    (∀ r ∈ regsC8, r ≠ [] ∧ ∀ c ∈ r, isWordChar c = true) ∧
      fix regsC8 ("eax + ebx".toList) = fixSpec regsC8 ("eax + ebx".toList) :=
  ⟨by decide, fix_rewrites_word_tokens regsC8 (by decide) ("eax + ebx".toList)⟩

/-- Evaluating the model on the spec's concrete examples: `eax + ebx` has
both tokens rewritten into `$`-form, the longer identifier `maxebx` is left
untouched, and an already-`$`-prefixed token is absorbed unchanged. -/
theorem fix_concrete_examples :
    fix regsC8 ("eax + ebx".toList) = ("$eax + $ebx").toList ∧
      fix regsC8 ("maxebx".toList) = ("maxebx").toList ∧
      fix regsC8 ("$eax".toList) = ("$eax").toList := by
  refine ⟨?_, ?_, ?_⟩ <;> decide
